import Mathlib

/-!
Verification of the sandboxed-execution-and-verification core of the
vibe-coding repository: the Sandbox Runner (worker: `captureConsole`,
`deepEqual`, `serializeValue`, `runTests`, `self.onmessage`) and the Host
Controller's case-parsing logic (`parseValue` and the argument-vector
construction in `handleRun`).

JavaScript runtime values that can flow through the runner are modelled by
the inductive type `Value`: the JSON-representable values (null, booleans,
numbers, strings, arrays, plain objects) plus `undefined`, which arises in
the real system (an empty `expected` text parses to `undefined`, and user
code may return or embed `undefined`).  Numbers are modelled as integers;
none of the verified properties depend on floating-point behaviour.
Objects are modelled as association lists of (key, value) pairs; a faithful
image of a JavaScript object has pairwise-distinct keys.
-/

inductive Value where
  | undef : Value
  | null : Value
  | bool (b : Bool) : Value
  | num (n : Int) : Value
  | str (s : String) : Value
  | arr (elems : List Value) : Value
  | obj (fields : List (String × Value)) : Value

mutual

/-- Structural equality on `Value`, mutually with lists of values and
field lists.  On `Value` trees this coincides with propositional equality
(`valEq_iff`); it models the `Object.is(a, b)` test at the top of
`deepEqual` (reference identity on the same acyclic value tree). -/
def valEq : Value → Value → Bool
  | .undef, .undef => true
  | .null, .null => true
  | .bool x, .bool y => x == y
  | .num x, .num y => x == y
  | .str x, .str y => x == y
  | .arr xs, .arr ys => valEqList xs ys
  | .obj xs, .obj ys => valEqFields xs ys
  | _, _ => false

/-- Structural equality on lists of values (see `valEq`). -/
def valEqList : List Value → List Value → Bool
  | [], [] => true
  | x :: xs, y :: ys => valEq x y && valEqList xs ys
  | _, _ => false

/-- Structural equality on field lists (see `valEq`). -/
def valEqFields : List (String × Value) → List (String × Value) → Bool
  | [], [] => true
  | (k, v) :: ps, (l, w) :: qs => k == l && valEq v w && valEqFields ps qs
  | _, _ => false

end

/-- Property access `fields[key]` on an object: the value of the first
field named `key`, and JavaScript's `undefined` when there is none. -/
def getOwn (fields : List (String × Value)) (key : String) : Value :=
  match fields with
  | [] => .undef
  | (k, v) :: rest => if k = key then v else getOwn rest key

mutual

/-- The worker's `deepEqual` (src/unnamed/part_001, lines 62-85):
`Object.is` identity first; then both operands must be non-null objects;
two arrays are compared by length and position; an array never equals a
non-array object; two non-array objects are compared by own-key count and,
for every own key of `a`, recursive equality of `a[key]` and `b[key]`. -/
def deepEqual : Value → Value → Bool
  | a, b =>
    if valEq a b then true
    else
      match a, b with
      | .arr xs, .arr ys => (xs.length == ys.length) && deepEqualList xs ys
      | .obj xs, .obj ys => (xs.length == ys.length) && deepEqualFields ys xs
      | _, _ => false

/-- Positionwise `deepEqual` over two arrays of equal length
(`a.every((value, index) => deepEqual(value, b[index]))`). -/
def deepEqualList : List Value → List Value → Bool
  | [], [] => true
  | x :: xs, y :: ys => deepEqual x y && deepEqualList xs ys
  | _, _ => false

/-- Fieldwise comparison `aKeys.every((key) => deepEqual(a[key], b[key]))`: every field of the
first object, compared against the second object's value at that key
(which is `undefined` when the key is absent). -/
def deepEqualFields (ys : List (String × Value)) : List (String × Value) → Bool
  | [] => true
  | (k, v) :: ps => deepEqual v (getOwn ys k) && deepEqualFields ys ps

end

/-- Test returning `true` exactly for JavaScript's `undefined`; models `value !== undefined`
(negated) from the Host Controller's argument filter. -/
def isUndef : Value → Bool
  | .undef => true
  | _ => false

/-- A list of keys with no duplicates (`true` iff pairwise distinct).
A real JavaScript object always satisfies this for its own keys. -/
def keysNodup : List String → Bool
  | [] => true
  | k :: ks => !(ks.contains k) && keysNodup ks

mutual

/-- JSON-derived values: built only from null, booleans, numbers, strings,
arrays, and plain objects (distinct keys) — in particular no `undefined`
anywhere.  Outputs of `JSON.parse` always satisfy this. -/
def isJson : Value → Bool
  | .undef => false
  | .null => true
  | .bool _ => true
  | .num _ => true
  | .str _ => true
  | .arr xs => isJsonList xs
  | .obj ps => keysNodup (ps.map Prod.fst) && isJsonFields ps

/-- All members are JSON-derived (see `isJson`). -/
def isJsonList : List Value → Bool
  | [] => true
  | v :: vs => isJson v && isJsonList vs

/-- All field values are JSON-derived (see `isJson`). -/
def isJsonFields : List (String × Value) → Bool
  | [] => true
  | (_, v) :: ps => isJson v && isJsonFields ps

end

/-- Lower-case hexadecimal digit. -/
def hexDigit (n : Nat) : Char :=
  if n < 10 then Char.ofNat (48 + n) else Char.ofNat (87 + n)

/-- JSON string escaping of one character, as `JSON.stringify` performs it:
quote, backslash and control characters are escaped, everything else passes
through. -/
def jsonEscapeChar (c : Char) : String :=
  if c = '"' then "\\\""
  else if c = '\\' then "\\\\"
  else if c = '\x08' then "\\b"
  else if c = '\t' then "\\t"
  else if c = '\n' then "\\n"
  else if c = '\x0c' then "\\f"
  else if c = '\r' then "\\r"
  else if c.toNat < 32 then
    String.mk ['\\', 'u', '0', '0', hexDigit (c.toNat / 16), hexDigit (c.toNat % 16)]
  else String.singleton c

/-- A JSON string literal for `s` (double quotes around the escaped text). -/
def jsonQuote (s : String) : String :=
  "\"" ++ String.join (s.toList.map jsonEscapeChar) ++ "\""

mutual

/-- Model of `JSON.stringify` on `Value`.  Returns `none` exactly where the
real `JSON.stringify` returns `undefined` rather than a string (a top-level
`undefined`).  Inside an array an `undefined` element serializes as `null`;
inside an object a field whose value is `undefined` is omitted.  On the
acyclic `Value` domain serialization never throws. -/
def jsonStringify : Value → Option String
  | .undef => none
  | .null => some "null"
  | .bool b => some (if b then "true" else "false")
  | .num n => some (toString n)
  | .str s => some (jsonQuote s)
  | .arr xs => some ("[" ++ String.intercalate "," (jsonStringifyList xs) ++ "]")
  | .obj ps => some ("\x7b" ++ String.intercalate "," (jsonStringifyFields ps) ++ "\x7d")

/-- Array elements for `jsonStringify`; `undefined` renders as `null`. -/
def jsonStringifyList : List Value → List String
  | [] => []
  | v :: vs =>
    (match jsonStringify v with
     | none => "null"
     | some s => s) :: jsonStringifyList vs

/-- Object members for `jsonStringify`; fields with no serialization
(`undefined` values) are omitted. -/
def jsonStringifyFields : List (String × Value) → List String
  | [] => []
  | (k, v) :: ps =>
    match jsonStringify v with
    | none => jsonStringifyFields ps
    | some s => (jsonQuote k ++ ":" ++ s) :: jsonStringifyFields ps

end

mutual

/-- JavaScript's `String(value)` conversion on the modelled values: used
when a thrown value is not an `Error`, and as the (dead, on acyclic values)
fallback of the serializers.  An array converts by joining its elements
with commas (`undefined`/`null` elements become empty), a plain object
converts to `"[object Object]"`. -/
def jsToString : Value → String
  | .undef => "undefined"
  | .null => "null"
  | .bool b => if b then "true" else "false"
  | .num n => toString n
  | .str s => s
  | .arr xs => String.intercalate "," (jsToStringList xs)
  | .obj _ => "[object Object]"

/-- Element conversions for `jsToString` on arrays. -/
def jsToStringList : List Value → List String
  | [] => []
  | .undef :: vs => "" :: jsToStringList vs
  | .null :: vs => "" :: jsToStringList vs
  | v :: vs => jsToString v :: jsToStringList vs

end

/-- The worker's `serializeValue` (src/unnamed/part_001, lines 87-94):
strings pass through; otherwise `JSON.stringify`, whose result can itself
be `undefined` (modelled as `none`).  The `String(value)` fallback only
fires when `JSON.stringify` throws, which cannot happen on acyclic values,
so it does not appear here. -/
def serializeValue : Value → Option String
  | .str s => some s
  | v => jsonStringify v

/-- The `serialize` closure inside `captureConsole` (lines 26-33), textually
identical to `serializeValue` in the source. -/
def consoleSerialize : Value → Option String
  | .str s => some s
  | v => jsonStringify v

/-- One log line: `args.map(serialize).join(" ")`.  `Array.prototype.join`
renders an `undefined` entry (a serialized top-level `undefined`) as the
empty string. -/
def logLine (args : List Value) : String :=
  String.intercalate " " (args.map (fun v => (consoleSerialize v).getD ""))

/-- The `logger` closure of `captureConsole`: pushes exactly one joined
line onto the buffer. -/
def consoleLog (logs : List String) (args : List Value) : List String :=
  logs ++ [logLine args]

/-- The console-like object handed to user code: the conventional verbs,
all bound to the same logger. -/
structure CapturedConsole where
  log : List String → List Value → List String
  info : List String → List Value → List String
  warn : List String → List Value → List String
  error : List String → List Value → List String

/-- The worker's `captureConsole` (lines 24-48): every verb is the single `logger`. -/
def captureConsole : CapturedConsole :=
  ⟨consoleLog, consoleLog, consoleLog, consoleLog⟩

/-- A thrown JavaScript value: either an `Error` instance carrying a
message, or an arbitrary non-`Error` value. -/
inductive Thrown where
  | errObj (message : String) : Thrown
  | val (v : Value) : Thrown

/-- Extraction `error instanceof Error ? error.message : String(error)` — the message
the worker extracts from a caught value (lines 123-124 and 138-139). -/
def thrownMessage : Thrown → String
  | .errObj m => m
  | .val v => jsToString v

/-- One structured test case as the worker receives it. -/
structure Case where
  name : String
  args : List Value
  expected : Value

/-- The worker's per-case verdict record. -/
structure TestResult where
  name : String
  pass : Bool
  error : Option String
  expected : Option String
  actual : Option String
deriving DecidableEq

/-- A callable entry point.  Invoking it on an argument vector yields the
console calls it makes (in order) and either a returned value or a thrown
value.  It is modelled as a pure function of its arguments: the entry
point's behaviour on one case does not depend on earlier cases. -/
structure Callable where
  run : List Value → List (List Value) × Except Thrown Value

/-- What evaluating the program text produced as its resolved entry point:
a callable, or some non-callable value (`typeof solution !== "function"`). -/
inductive Loaded where
  | callable (f : Callable) : Loaded
  | value (v : Value) : Loaded

/-- Modelled from the spec: the observable behaviour of `runUserCode`'s
`new Function(...)` evaluation of the opaque program text (a host
primitive, not part of the repository's own sources).  Evaluation makes
some ordered console calls and then either throws or resolves an entry
point. -/
structure ProgramModel where
  evalCalls : List (List Value)
  evalResult : Except Thrown Loaded

/-- One iteration of the `for (const testCase of cases)` loop in
`runTests` (lines 101-126): invoke the entry point; a throw is caught and
recorded with the extracted message; a returned value is compared with
`deepEqual` against `expected`, recording either a bare pass or an
`"Output mismatch."` with both serializations.  Also yields the console
calls the invocation made. -/
def runCase (f : Callable) (testCase : Case) : List (List Value) × TestResult :=
  match f.run testCase.args with
  | (calls, .ok actual) =>
    if deepEqual actual testCase.expected then
      (calls, ⟨testCase.name, true, none, none, none⟩)
    else
      (calls, ⟨testCase.name, false, some "Output mismatch.",
               serializeValue testCase.expected, serializeValue actual⟩)
  | (calls, .error thrown) =>
    (calls, ⟨testCase.name, false, some (thrownMessage thrown), none, none⟩)

/-- The whole loop of `runTests`: one `TestResult` per case in order, and
the concatenation, in case order, of the console calls the invocations
made. -/
def runTestsGo (f : Callable) : List Case → List (List Value) × List TestResult
  | [] => ([], [])
  | c :: cs =>
    ((runCase f c).1 ++ (runTestsGo f cs).1, (runCase f c).2 :: (runTestsGo f cs).2)

/-- The worker's `runTests` (lines 96-128): `typeof solution !== "function"` throws
`Error("solution must be a function.")`; otherwise the loop runs. -/
def runTests (solution : Loaded) (cases : List Case) :
    Except Thrown (List (List Value) × List TestResult) :=
  match solution with
  | .value _ => .error (.errObj "solution must be a function.")
  | .callable f => .ok (runTestsGo f cases)

/-- The worker's response message. -/
inductive WorkerResponse where
  | success (results : List TestResult) (logs : List String) : WorkerResponse
  | failure (error : String) (logs : List String) : WorkerResponse
deriving DecidableEq

/-- The `logs` field, common to both response shapes. -/
def WorkerResponse.logsField : WorkerResponse → List String
  | .success _ l => l
  | .failure _ l => l

/-- Whether the response is the `ok: false` shape. -/
def WorkerResponse.isFailure : WorkerResponse → Bool
  | .success _ _ => false
  | .failure _ _ => true

/-- The buffer produced by a sequence of console calls: one line per call,
in call order. -/
def logsOf (calls : List (List Value)) : List String :=
  calls.map logLine

/-- The worker's `self.onmessage` (lines 130-147): evaluate the program text (its
console lines land first in the buffer), run the cases (`cases ?? []`
treats a null/undefined case list as empty), answer `ok: true` with the
results, or catch the load-phase throw (from evaluation or from
`runTests`'s callable check) and answer `ok: false` with the message and
whatever was logged before the failure. -/
def workerExecute (program : ProgramModel) (cases : Option (List Case)) :
    WorkerResponse :=
  match program.evalResult with
  | .error thrown => .failure (thrownMessage thrown) (logsOf program.evalCalls)
  | .ok solution =>
    match runTests solution (cases.getD []) with
    | .error thrown => .failure (thrownMessage thrown) (logsOf program.evalCalls)
    | .ok (calls, results) =>
      .success results (logsOf program.evalCalls ++ logsOf calls)

/-- All console calls a run performs, in order: the evaluation's calls,
then — only when a callable was resolved — the per-case calls. -/
def workerCalls (program : ProgramModel) (cases : Option (List Case)) :
    List (List Value) :=
  match program.evalResult with
  | .error _ => program.evalCalls
  | .ok (.value _) => program.evalCalls
  | .ok (.callable f) => program.evalCalls ++ (runTestsGo f (cases.getD [])).1

/-- JavaScript's `String.prototype.trim()`: strip leading and trailing
whitespace. -/
def jsTrim (s : String) : String :=
  String.mk (((s.toList.dropWhile Char.isWhitespace).reverse.dropWhile
    Char.isWhitespace).reverse)

/-- The Host Controller's `parseValue` (src/src/app/page.tsx, lines
51-59): empty/whitespace-only text is `undefined`; otherwise the trimmed
text is parsed as JSON, and on parse failure the trimmed text itself is
the (string) value.  `JSON.parse` is a host primitive; it is passed in as
a function returning `none` on a parse error. -/
def parseValue (jsonParse : String → Option Value) (raw : String) : Value :=
  let trimmed := jsTrim raw
  if trimmed = "" then .undef
  else
    match jsonParse trimmed with
    | some v => v
    | none => .str trimmed

/-- The argument-vector construction in `handleRun` (page.tsx, lines
192-197): an array value is the argument vector verbatim; any other value
becomes a single-element vector filtered so that `undefined` is dropped. -/
def buildArgs (jsonParse : String → Option Value) (rawArgs : String) : List Value :=
  match parseValue jsonParse rawArgs with
  | .arr xs => xs
  | v => [v].filter (fun x => !isUndef x)

/-- One `ParsedCase` as `handleRun` pushes it (lines 190-207): synthesized
name from the 1-based position and the raw argument text, the argument
vector, and the expected value parsed as a single value. -/
def parsedCase (jsonParse : String → Option Value) (index : Nat)
    (rawArgs rawExpected : String) : Case :=
  let labelBase := if jsTrim rawArgs = "" then "" else "(" ++ rawArgs ++ ")"
  ⟨jsTrim ("Case " ++ toString (index + 1) ++ " " ++ labelBase),
   buildArgs jsonParse rawArgs,
   parseValue jsonParse rawExpected⟩

/-- The argument-vector rule exactly as the specification words it, for
comparison with `buildArgs`: parse the args text as JSON; on failure the
trimmed raw text is a literal string value; an array result is the vector
verbatim; an `undefined` (absent/empty) value yields the empty vector;
anything else is a one-element vector. -/
def specArgVector (jsonParse : String → Option Value) (rawArgs : String) :
    List Value :=
  if jsTrim rawArgs = "" then []
  else
    match jsonParse (jsTrim rawArgs) with
    | none => [.str (jsTrim rawArgs)]
    | some (.arr xs) => xs
    | some .undef => []
    | some v => [v]

/-- The unordered key-value mapping equality exactly as the specification
words it, for comparison with `deepEqual` on two objects: the same set of
own keys (order irrelevant), and for every such key the two values at that
key are recursively deep-equal. -/
def mappingEqSpec (xs ys : List (String × Value)) : Prop :=
  (xs.map Prod.fst).toFinset = (ys.map Prod.fst).toFinset ∧
    ∀ k ∈ xs.map Prod.fst, deepEqual (getOwn xs k) (getOwn ys k) = true

mutual

/-- A step-indexed evaluator for the `deepEqual` recursion: `fuel` bounds
the recursion depth (each nested `deepEqual` call consumes one unit), and
`none` means the depth bound was hit.  Termination of the source algorithm
on acyclic values is the statement that some finite fuel always yields
`some` — see `deepEqual_terminates`. -/
def deepEqualFuel : Nat → Value → Value → Option Bool
  | 0, _, _ => none
  | fuel + 1, a, b =>
    if valEq a b then some true
    else
      match a, b with
      | .arr xs, .arr ys =>
        if xs.length == ys.length then deepEqualListFuel fuel xs ys else some false
      | .obj xs, .obj ys =>
        if xs.length == ys.length then deepEqualFieldsFuel fuel ys xs else some false
      | _, _ => some false
  termination_by fuel _ _ => (fuel, 0)

/-- Step-indexed positionwise comparison (see `deepEqualFuel`). -/
def deepEqualListFuel (fuel : Nat) : List Value → List Value → Option Bool
  | [], [] => some true
  | x :: xs, y :: ys =>
    (match deepEqualFuel fuel x y with
     | none => none
     | some true => deepEqualListFuel fuel xs ys
     | some false => some false)
  | _, _ => some false
  termination_by xs _ => (fuel, sizeOf xs)

/-- Step-indexed fieldwise comparison (see `deepEqualFuel`). -/
def deepEqualFieldsFuel (fuel : Nat) (ys : List (String × Value)) :
    List (String × Value) → Option Bool
  | [] => some true
  | (k, v) :: ps =>
    match deepEqualFuel fuel v (getOwn ys k) with
    | none => none
    | some true => deepEqualFieldsFuel fuel ys ps
    | some false => some false
  termination_by ps => (fuel, sizeOf ps)

end

/-- The per-argument console rendering exactly as the specification words
it, for comparison with the captured logger: a string argument passes
through unchanged, every other argument is its JSON serialization text,
with a generic string conversion as the fallback (which never fires on the
acyclic `Value` domain, where serialization cannot throw). -/
def specRender : Value → String
  | .str s => s
  | v => (jsonStringify v).getD (jsToString v)

/-! ## Basic structural lemmas -/

theorem Value.one_le_sizeOf (a : Value) : 1 ≤ sizeOf a := by
  cases a <;> simp

theorem sizeOf_snd_lt_of_mem {p : String × Value} {ps : List (String × Value)}
    (h : p ∈ ps) : sizeOf p.2 < sizeOf ps := by
  have h1 : sizeOf p < sizeOf ps := List.sizeOf_lt_of_mem h
  have h2 : sizeOf p.2 < sizeOf p := by
    cases p with
    | mk k v => simp
  omega

/-- Structural induction principle for `Value`, giving membership-based
hypotheses for the nested lists. -/
theorem Value.inductionOn {motive : Value → Prop}
    (hundef : motive .undef) (hnull : motive .null)
    (hbool : ∀ b, motive (.bool b)) (hnum : ∀ n, motive (.num n))
    (hstr : ∀ s, motive (.str s))
    (harr : ∀ xs, (∀ x ∈ xs, motive x) → motive (.arr xs))
    (hobj : ∀ ps, (∀ p ∈ ps, motive p.2) → motive (.obj ps)) :
    ∀ a, motive a := by
  have key : ∀ n (a : Value), sizeOf a ≤ n → motive a := by
    intro n
    induction n using Nat.strong_induction_on with
    | _ n ih =>
      intro a ha
      match a with
      | .undef => exact hundef
      | .null => exact hnull
      | .bool b => exact hbool b
      | .num m => exact hnum m
      | .str s => exact hstr s
      | .arr xs =>
        refine harr xs (fun x hx => ?_)
        have h1 : sizeOf x < sizeOf xs := List.sizeOf_lt_of_mem hx
        have h2 : sizeOf (Value.arr xs) = 1 + sizeOf xs := by simp
        exact ih (sizeOf x) (by omega) x (le_refl _)
      | .obj ps =>
        refine hobj ps (fun p hp => ?_)
        have h1 : sizeOf p.2 < sizeOf ps := sizeOf_snd_lt_of_mem hp
        have h2 : sizeOf (Value.obj ps) = 1 + sizeOf ps := by simp
        exact ih (sizeOf p.2) (by omega) p.2 (le_refl _)
  exact fun a => key (sizeOf a) a (le_refl _)

/-! ## Lemmas about the structural identity test `valEq` -/

theorem valEqList_refl_of (xs : List Value)
    (h : ∀ x ∈ xs, valEq x x = true) : valEqList xs xs = true := by
  induction xs with
  | nil => rfl
  | cons x xs ih =>
    simp only [valEqList, Bool.and_eq_true]
    exact ⟨h x (by simp), ih (fun y hy => h y (by simp [hy]))⟩

theorem valEqFields_refl_of (ps : List (String × Value))
    (h : ∀ p ∈ ps, valEq p.2 p.2 = true) : valEqFields ps ps = true := by
  induction ps with
  | nil => rfl
  | cons p ps ih =>
    cases p with
    | mk k v =>
      simp only [valEqFields, Bool.and_eq_true]
      exact ⟨⟨by simp, h (k, v) (by simp)⟩, ih (fun q hq => h q (by simp [hq]))⟩

theorem valEq_refl (a : Value) : valEq a a = true := by
  induction a using Value.inductionOn with
  | hundef => rfl
  | hnull => rfl
  | hbool b => simp [valEq]
  | hnum n => simp [valEq]
  | hstr s => simp [valEq]
  | harr xs ih => simpa [valEq] using valEqList_refl_of xs ih
  | hobj ps ih => simpa [valEq] using valEqFields_refl_of ps ih

theorem valEqList_sound_of (xs : List Value)
    (h : ∀ x ∈ xs, ∀ y, valEq x y = true → x = y) :
    ∀ ys, valEqList xs ys = true → xs = ys := by
  induction xs with
  | nil => intro ys; cases ys <;> simp [valEqList]
  | cons x xs ih =>
    intro ys hxy
    cases ys with
    | nil => simp [valEqList] at hxy
    | cons y ys =>
      simp only [valEqList, Bool.and_eq_true] at hxy
      have h1 : x = y := h x (by simp) y hxy.1
      have h2 : xs = ys := ih (fun z hz => h z (by simp [hz])) ys hxy.2
      rw [h1, h2]

theorem valEqFields_sound_of (ps : List (String × Value))
    (h : ∀ p ∈ ps, ∀ w, valEq p.2 w = true → p.2 = w) :
    ∀ qs, valEqFields ps qs = true → ps = qs := by
  induction ps with
  | nil => intro qs; cases qs <;> simp [valEqFields]
  | cons p ps ih =>
    intro qs hpq
    cases p with
    | mk k v =>
      cases qs with
      | nil => simp [valEqFields] at hpq
      | cons q qs =>
        cases q with
        | mk l w =>
          simp only [valEqFields, Bool.and_eq_true] at hpq
          have hk : k = l := by
            have := hpq.1.1
            simpa using this
          have hv : v = w := h (k, v) (by simp) w hpq.1.2
          have hrest : ps = qs := ih (fun r hr => h r (by simp [hr])) qs hpq.2
          rw [hk, hv, hrest]

theorem valEq_sound : ∀ a b : Value, valEq a b = true → a = b := by
  intro a
  induction a using Value.inductionOn with
  | hundef => intro b; cases b <;> simp [valEq]
  | hnull => intro b; cases b <;> simp [valEq]
  | hbool x => intro b; cases b <;> simp [valEq]
  | hnum x => intro b; cases b <;> simp [valEq]
  | hstr x => intro b; cases b <;> simp [valEq]
  | harr xs ih =>
    intro b
    cases b <;> simp only [valEq] <;> intro h
    case arr ys => rw [valEqList_sound_of xs ih ys h]
    all_goals simp_all
  | hobj ps ih =>
    intro b
    cases b <;> simp only [valEq] <;> intro h
    case obj qs => rw [valEqFields_sound_of ps ih qs h]
    all_goals simp_all

theorem valEq_eq_true_iff (a b : Value) : valEq a b = true ↔ a = b := by
  constructor
  · exact valEq_sound a b
  · intro h; rw [h]; exact valEq_refl b

/-! ## Basic facts about `deepEqual` -/

/-- Reflexivity is immediate from the `Object.is` shortcut. -/
theorem deepEqual_refl (a : Value) : deepEqual a a = true := by
  rw [deepEqual.eq_def]
  simp [valEq_refl]

theorem deepEqual_eq_true_of_valEq {a b : Value} (h : valEq a b = true) :
    deepEqual a b = true := by
  rw [deepEqual.eq_def]
  simp [h]

/-- Against `undefined`, `deepEqual` succeeds only for `undefined` itself:
the identity test is the only way to match, since `undefined` is not an
object. -/
theorem deepEqual_undef_right_iff (a : Value) :
    deepEqual a .undef = true ↔ a = .undef := by
  constructor
  · intro h
    rw [deepEqual.eq_def] at h
    cases a <;> simp [valEq] at h ⊢
  · intro h; rw [h]; exact deepEqual_refl _

theorem deepEqual_undef_left_iff (b : Value) :
    deepEqual .undef b = true ↔ b = .undef := by
  constructor
  · intro h
    rw [deepEqual.eq_def] at h
    cases b <;> simp [valEq] at h ⊢
  · intro h; rw [h]; exact deepEqual_refl _

theorem deepEqualList_refl (xs : List Value) : deepEqualList xs xs = true := by
  induction xs with
  | nil => rfl
  | cons x xs ih => simp [deepEqualList, deepEqual_refl, ih]

theorem deepEqualList_iff_forall₂ (xs ys : List Value) :
    deepEqualList xs ys = true ↔
      List.Forall₂ (fun x y => deepEqual x y = true) xs ys := by
  induction xs generalizing ys with
  | nil => cases ys <;> simp [deepEqualList]
  | cons x xs ih =>
    cases ys with
    | nil => simp [deepEqualList]
    | cons y ys => simp [deepEqualList, ih]

theorem deepEqualFields_iff_forall (ys ps : List (String × Value)) :
    deepEqualFields ys ps = true ↔
      ∀ p ∈ ps, deepEqual p.2 (getOwn ys p.1) = true := by
  induction ps with
  | nil => simp [deepEqualFields]
  | cons p ps ih =>
    cases p with
    | mk k v => simp [deepEqualFields, ih]

/-- Unfolding of `deepEqual` on two arrays. -/
theorem deepEqual_arr_arr_iff (xs ys : List Value) :
    deepEqual (.arr xs) (.arr ys) = true ↔
      xs.length = ys.length ∧ deepEqualList xs ys = true := by
  rw [deepEqual.eq_def]
  by_cases hv : valEq (.arr xs) (.arr ys) = true
  · have hxy : Value.arr xs = Value.arr ys := valEq_sound _ _ hv
    cases hxy
    simp [hv, deepEqualList_refl]
  · simp [hv, Bool.and_eq_true]

/-- Unfolding of `deepEqual` on two non-array objects.  The identical-tree
disjunct cannot be folded into the other one: with duplicate keys (never a
real JavaScript object) the fieldwise comparison of a list against itself
can fail while the identity test succeeds. -/
theorem deepEqual_obj_obj_iff (xs ys : List (String × Value)) :
    deepEqual (.obj xs) (.obj ys) = true ↔
      xs = ys ∨ (xs.length = ys.length ∧ deepEqualFields ys xs = true) := by
  rw [deepEqual.eq_def]
  by_cases hv : valEq (.obj xs) (.obj ys) = true
  · have hxy : Value.obj xs = Value.obj ys := valEq_sound _ _ hv
    cases hxy
    simp [hv]
  · have hne : xs ≠ ys := by
      intro h
      cases h
      exact hv (valEq_refl _)
    simp [hv, hne, Bool.and_eq_true]

/-- Result of `deepEqual` on mismatched shapes (array vs non-array object, or any
non-object on either side with no identity) is `false`. -/
theorem deepEqual_arr_obj (xs : List Value) (ps : List (String × Value)) :
    deepEqual (.arr xs) (.obj ps) = false ∧ deepEqual (.obj ps) (.arr xs) = false := by
  constructor <;> rw [deepEqual.eq_def] <;> simp [valEq]

/-! ## Lemmas about `getOwn`, `keysNodup` and `isJson` -/

theorem getOwn_eq_undef_of_not_mem {ps : List (String × Value)} {k : String}
    (h : k ∉ ps.map Prod.fst) : getOwn ps k = .undef := by
  induction ps with
  | nil => rfl
  | cons p ps ih =>
    cases p with
    | mk l w =>
      simp only [List.map_cons, List.mem_cons] at h
      push_neg at h
      simp only [getOwn]
      rw [if_neg (fun hh => h.1 hh.symm)]
      exact ih h.2

theorem getOwn_self_mem {ps : List (String × Value)} {k : String}
    (h : k ∈ ps.map Prod.fst) : (k, getOwn ps k) ∈ ps := by
  induction ps with
  | nil => simp at h
  | cons p ps ih =>
    cases p with
    | mk l w =>
      by_cases hk : l = k
      · cases hk
        simp [getOwn]
      · simp only [List.map_cons, List.mem_cons] at h
        rcases h with h | h
        · exact absurd h.symm hk
        · simp only [getOwn, if_neg hk]
          exact List.mem_cons_of_mem _ (ih h)

theorem keysNodup_iff (ks : List String) : keysNodup ks = true ↔ ks.Nodup := by
  induction ks with
  | nil => simp [keysNodup]
  | cons k ks ih =>
    simp only [keysNodup, Bool.and_eq_true, Bool.not_eq_true', ih,
      List.nodup_cons]
    constructor
    · rintro ⟨h1, h2⟩
      refine ⟨fun hm => ?_, h2⟩
      have hc := List.elem_iff.mpr hm
      have h1e : List.elem k ks = false := h1
      rw [h1e] at hc
      exact Bool.false_ne_true hc
    · rintro ⟨h1, h2⟩
      refine ⟨?_, h2⟩
      cases hc : ks.contains k
      · rfl
      · exact absurd (List.elem_iff.mp hc) h1

theorem getOwn_eq_of_mem_nodup {ps : List (String × Value)} {k : String}
    {v : Value} (hnd : (ps.map Prod.fst).Nodup) (h : (k, v) ∈ ps) :
    getOwn ps k = v := by
  induction ps with
  | nil => simp at h
  | cons p ps ih =>
    cases p with
    | mk l w =>
      simp only [List.map_cons, List.nodup_cons] at hnd
      rcases List.mem_cons.mp h with heq | hmem
      · cases heq
        simp [getOwn]
      · have hmk : k ∈ ps.map Prod.fst := List.mem_map_of_mem Prod.fst hmem
        have hlk : l ≠ k := by
          intro hh
          rw [hh] at hnd
          exact hnd.1 hmk
        simp only [getOwn, if_neg hlk]
        exact ih hnd.2 hmem

theorem isJsonList_iff (xs : List Value) :
    isJsonList xs = true ↔ ∀ x ∈ xs, isJson x = true := by
  induction xs with
  | nil => simp [isJsonList]
  | cons x xs ih => simp [isJsonList, ih]

theorem isJsonFields_iff (ps : List (String × Value)) :
    isJsonFields ps = true ↔ ∀ p ∈ ps, isJson p.2 = true := by
  induction ps with
  | nil => simp [isJsonFields]
  | cons p ps ih =>
    cases p with
    | mk k v => simp [isJsonFields, ih]

theorem isJson_obj_iff (ps : List (String × Value)) :
    isJson (.obj ps) = true ↔
      keysNodup (ps.map Prod.fst) = true ∧ isJsonFields ps = true := by
  simp [isJson, Bool.and_eq_true]

theorem isJson_ne_undef {a : Value} (h : isJson a = true) : a ≠ .undef := by
  cases a <;> simp [isJson] at h ⊢

theorem isJson_getOwn {ps : List (String × Value)} {k : String}
    (h : isJson (.obj ps) = true) (hk : k ∈ ps.map Prod.fst) :
    isJson (getOwn ps k) = true := by
  rcases (isJson_obj_iff ps).mp h with ⟨_, hfields⟩
  exact (isJsonFields_iff ps).mp hfields _ (getOwn_self_mem hk)

theorem sizeOf_getOwn_lt {ps : List (String × Value)} {k : String}
    (hk : k ∈ ps.map Prod.fst) :
    sizeOf (getOwn ps k) < sizeOf (Value.obj ps) := by
  have h1 : sizeOf (getOwn ps k) < sizeOf ps := by
    simpa using sizeOf_snd_lt_of_mem (getOwn_self_mem hk)
  have h2 : sizeOf (Value.obj ps) = 1 + sizeOf ps := by simp
  omega

/-! ## The key-set characterization of `deepEqual` on objects -/

/-- On well-formed objects (distinct keys, no `undefined` among the field
values — every JSON-derived object is such), `deepEqual` holds exactly
when the two objects have the same set of own keys and every shared key's
values are recursively `deepEqual`. -/
theorem deepEqual_obj_char {xs ys : List (String × Value)}
    (hx : isJson (.obj xs) = true) (hy : isJson (.obj ys) = true) :
    deepEqual (.obj xs) (.obj ys) = true ↔ mappingEqSpec xs ys := by
  rcases (isJson_obj_iff xs).mp hx with ⟨hxnd0, _⟩
  rcases (isJson_obj_iff ys).mp hy with ⟨hynd0, _⟩
  have hxnd : (xs.map Prod.fst).Nodup := (keysNodup_iff _).mp hxnd0
  have hynd : (ys.map Prod.fst).Nodup := (keysNodup_iff _).mp hynd0
  constructor
  · intro h
    rcases (deepEqual_obj_obj_iff xs ys).mp h with heq | ⟨hlen, hfields⟩
    · cases heq
      exact ⟨rfl, fun k _ => deepEqual_refl _⟩
    · have hvals : ∀ k ∈ xs.map Prod.fst,
          deepEqual (getOwn xs k) (getOwn ys k) = true := by
        intro k hk
        exact (deepEqualFields_iff_forall ys xs).mp hfields _ (getOwn_self_mem hk)
      have hsub : ∀ k ∈ xs.map Prod.fst, k ∈ ys.map Prod.fst := by
        intro k hk
        by_contra hnk
        have hundef : getOwn ys k = .undef := getOwn_eq_undef_of_not_mem hnk
        have hde := hvals k hk
        rw [hundef] at hde
        exact isJson_ne_undef (isJson_getOwn hx hk)
          ((deepEqual_undef_right_iff _).mp hde)
      refine ⟨?_, hvals⟩
      have hsubF : (xs.map Prod.fst).toFinset ⊆ (ys.map Prod.fst).toFinset := by
        intro k hk
        rw [List.mem_toFinset] at hk ⊢
        exact hsub k hk
      have hcx : (xs.map Prod.fst).toFinset.card = xs.length := by
        rw [List.toFinset_card_of_nodup hxnd, List.length_map]
      have hcy : (ys.map Prod.fst).toFinset.card = ys.length := by
        rw [List.toFinset_card_of_nodup hynd, List.length_map]
      exact Finset.eq_of_subset_of_card_le hsubF (by omega)
  · rintro ⟨hset, hvals⟩
    by_cases hxy : xs = ys
    · cases hxy
      exact deepEqual_refl _
    · refine (deepEqual_obj_obj_iff xs ys).mpr (Or.inr ⟨?_, ?_⟩)
      · have hcx : (xs.map Prod.fst).toFinset.card = xs.length := by
          rw [List.toFinset_card_of_nodup hxnd, List.length_map]
        have hcy : (ys.map Prod.fst).toFinset.card = ys.length := by
          rw [List.toFinset_card_of_nodup hynd, List.length_map]
        rw [hset] at hcx
        omega
      · refine (deepEqualFields_iff_forall ys xs).mpr (fun p hp => ?_)
        have hk : p.1 ∈ xs.map Prod.fst := List.mem_map_of_mem Prod.fst hp
        have hv := hvals p.1 hk
        have hgx : getOwn xs p.1 = p.2 := getOwn_eq_of_mem_nodup hxnd hp
        rw [hgx] at hv
        exact hv

/-! ## Symmetry of `deepEqual` on JSON-derived values -/

theorem deepEqual_shape {a b : Value} (h : deepEqual a b = true) :
    valEq a b = true ∨ (∃ xs ys, a = .arr xs ∧ b = .arr ys) ∨
      (∃ xs ys, a = .obj xs ∧ b = .obj ys) := by
  by_cases hv : valEq a b = true
  · exact Or.inl hv
  · cases a <;> cases b <;>
      first
        | exact Or.inr (Or.inl ⟨_, _, rfl, rfl⟩)
        | exact Or.inr (Or.inr ⟨_, _, rfl, rfl⟩)
        | (rw [deepEqual.eq_def] at h; simp [hv] at h)

theorem deepEqualList_symm_of : ∀ xs ys : List Value,
    (∀ x ∈ xs, ∀ y ∈ ys, deepEqual x y = true → deepEqual y x = true) →
    deepEqualList xs ys = true → deepEqualList ys xs = true := by
  intro xs
  induction xs with
  | nil =>
    intro ys h hl
    cases ys
    · rfl
    · simp [deepEqualList] at hl
  | cons x xs ih =>
    intro ys h hl
    cases ys with
    | nil => simp [deepEqualList] at hl
    | cons y ys =>
      simp only [deepEqualList, Bool.and_eq_true] at hl ⊢
      exact ⟨h x (by simp) y (by simp) hl.1,
        ih ys (fun a ha b hb => h a (by simp [ha]) b (by simp [hb])) hl.2⟩

theorem deepEqual_symm_one : ∀ n, ∀ a b : Value, sizeOf a + sizeOf b ≤ n →
    isJson a = true → isJson b = true →
    deepEqual a b = true → deepEqual b a = true := by
  intro n
  induction n using Nat.strong_induction_on with
  | _ n ih =>
    intro a b hn ha hb hab
    rcases deepEqual_shape hab with hv | ⟨xs, ys, rfl, rfl⟩ | ⟨xs, ys, rfl, rfl⟩
    · have he := valEq_sound _ _ hv
      cases he
      exact deepEqual_refl _
    · rcases (deepEqual_arr_arr_iff xs ys).mp hab with ⟨hlen, hlist⟩
      refine (deepEqual_arr_arr_iff ys xs).mpr ⟨hlen.symm, ?_⟩
      refine deepEqualList_symm_of xs ys (fun x hx y hy hxy => ?_) hlist
      have hsx : sizeOf x < sizeOf (Value.arr xs) := by
        have := List.sizeOf_lt_of_mem hx
        have h2 : sizeOf (Value.arr xs) = 1 + sizeOf xs := by simp
        omega
      have hsy : sizeOf y < sizeOf (Value.arr ys) := by
        have := List.sizeOf_lt_of_mem hy
        have h2 : sizeOf (Value.arr ys) = 1 + sizeOf ys := by simp
        omega
      have hjx : isJson x = true := by
        have := (isJsonList_iff xs).mp (by simpa [isJson] using ha)
        exact this x hx
      have hjy : isJson y = true := by
        have := (isJsonList_iff ys).mp (by simpa [isJson] using hb)
        exact this y hy
      exact ih (sizeOf x + sizeOf y) (by omega) x y (le_refl _) hjx hjy hxy
    · rcases (deepEqual_obj_char ha hb).mp hab with ⟨hset, hvals⟩
      refine (deepEqual_obj_char hb ha).mpr ⟨hset.symm, fun k hk => ?_⟩
      have hkx : k ∈ xs.map Prod.fst := by
        have h1 : k ∈ (ys.map Prod.fst).toFinset := List.mem_toFinset.mpr hk
        rw [← hset] at h1
        exact List.mem_toFinset.mp h1
      have hv := hvals k hkx
      have hsx : sizeOf (getOwn xs k) < sizeOf (Value.obj xs) := sizeOf_getOwn_lt hkx
      have hsy : sizeOf (getOwn ys k) < sizeOf (Value.obj ys) := sizeOf_getOwn_lt hk
      exact ih (sizeOf (getOwn xs k) + sizeOf (getOwn ys k)) (by omega)
        (getOwn xs k) (getOwn ys k) (le_refl _)
        (isJson_getOwn ha hkx) (isJson_getOwn hb hk) hv

/-- Symmetry of `deepEqual` on JSON-derived values. -/
theorem deepEqual_symm_of_json {a b : Value} (ha : isJson a = true)
    (hb : isJson b = true) : deepEqual a b = deepEqual b a := by
  cases hab : deepEqual a b
  · cases hba : deepEqual b a
    · rfl
    · have := deepEqual_symm_one (sizeOf b + sizeOf a) b a (le_refl _) hb ha hba
      rw [hab] at this
      exact this
  · exact (deepEqual_symm_one (sizeOf a + sizeOf b) a b (le_refl _) ha hb hab).symm

/-! ## The step-indexed evaluator agrees with `deepEqual` -/

theorem deepEqual_unfold (a b : Value) : deepEqual a b =
    (if valEq a b then true
     else
       match a, b with
       | .arr xs, .arr ys => (xs.length == ys.length) && deepEqualList xs ys
       | .obj xs, .obj ys => (xs.length == ys.length) && deepEqualFields ys xs
       | _, _ => false) := by
  rw [deepEqual.eq_def]

theorem deepEqualFuel_succ (m : Nat) (a b : Value) : deepEqualFuel (m + 1) a b =
    (if valEq a b then some true
     else
       match a, b with
       | .arr xs, .arr ys =>
         if xs.length == ys.length then deepEqualListFuel m xs ys else some false
       | .obj xs, .obj ys =>
         if xs.length == ys.length then deepEqualFieldsFuel m ys xs else some false
       | _, _ => some false) := by
  rw [deepEqualFuel.eq_def]

theorem deepEqualListFuel_eq_of (m : Nat) :
    ∀ xs ys : List Value,
      (∀ x ∈ xs, ∀ b, deepEqualFuel m x b = some (deepEqual x b)) →
      deepEqualListFuel m xs ys = some (deepEqualList xs ys) := by
  intro xs
  induction xs with
  | nil =>
    intro ys h
    cases ys <;> (rw [deepEqualListFuel.eq_def]; rfl)
  | cons x xs ih =>
    intro ys h
    cases ys with
    | nil => rw [deepEqualListFuel.eq_def]; rfl
    | cons y ys =>
      rw [deepEqualListFuel.eq_def]
      dsimp only
      rw [h x (by simp) y]
      cases hd : deepEqual x y
      · simp [deepEqualList, hd]
      · dsimp only
        rw [ih ys (fun z hz b => h z (by simp [hz]) b)]
        simp [deepEqualList, hd]

theorem deepEqualFieldsFuel_eq_of (m : Nat) :
    ∀ (ys ps : List (String × Value)),
      (∀ p ∈ ps, ∀ b, deepEqualFuel m p.2 b = some (deepEqual p.2 b)) →
      deepEqualFieldsFuel m ys ps = some (deepEqualFields ys ps) := by
  intro ys ps
  induction ps with
  | nil => intro h; rw [deepEqualFieldsFuel.eq_def]; rfl
  | cons p ps ih =>
    intro h
    cases p with
    | mk k v =>
      rw [deepEqualFieldsFuel.eq_def]
      dsimp only
      rw [h (k, v) (by simp) (getOwn ys k)]
      cases hd : deepEqual v (getOwn ys k)
      · simp [deepEqualFields, hd]
      · dsimp only
        rw [ih (fun q hq b => h q (by simp [hq]) b)]
        simp [deepEqualFields, hd]

theorem deepEqualFuel_eq : ∀ n, ∀ a b : Value, sizeOf a ≤ n →
    deepEqualFuel n a b = some (deepEqual a b) := by
  intro n
  induction n using Nat.strong_induction_on with
  | _ n ih =>
    intro a b ha
    cases n with
    | zero =>
      have := Value.one_le_sizeOf a
      omega
    | succ m =>
      rw [deepEqualFuel_succ, deepEqual_unfold]
      by_cases hv : valEq a b = true
      · simp [hv]
      · rw [if_neg hv, if_neg hv]
        have harr : ∀ xs : List Value, a = .arr xs →
            ∀ x ∈ xs, ∀ c, deepEqualFuel m x c = some (deepEqual x c) := by
          rintro xs rfl x hx c
          have h1 : sizeOf x < sizeOf xs := List.sizeOf_lt_of_mem hx
          have h2 : sizeOf (Value.arr xs) = 1 + sizeOf xs := by simp
          exact ih m (by omega) x c (by omega)
        have hobj : ∀ ps : List (String × Value), a = .obj ps →
            ∀ p ∈ ps, ∀ c, deepEqualFuel m p.2 c = some (deepEqual p.2 c) := by
          rintro ps rfl p hp c
          have h1 : sizeOf p.2 < sizeOf ps := sizeOf_snd_lt_of_mem hp
          have h2 : sizeOf (Value.obj ps) = 1 + sizeOf ps := by simp
          exact ih m (by omega) p.2 c (by omega)
        cases a <;> cases b <;> try rfl
        · next xs ys =>
            dsimp only
            cases hlen : (xs.length == ys.length)
            · simp
            · simp only [if_true, Bool.true_and]
              exact deepEqualListFuel_eq_of m xs ys (harr xs rfl)
        · next xs ys =>
            dsimp only
            cases hlen : (xs.length == ys.length)
            · simp
            · simp only [if_true, Bool.true_and]
              exact deepEqualFieldsFuel_eq_of m ys xs (hobj xs rfl)

/-! ## Facts about the test loop and the worker dispatcher -/

theorem runCase_name (f : Callable) (c : Case) : ((runCase f c).2).name = c.name := by
  rcases hr : f.run c.args with ⟨calls, r⟩
  cases r with
  | ok actual =>
    by_cases hd : deepEqual actual c.expected = true
    · simp [runCase, hr, hd]
    · simp [runCase, hr, hd]
  | error t => simp [runCase, hr]

theorem runCase_error {f : Callable} {c : Case} {calls : List (List Value)}
    {t : Thrown} (h : f.run c.args = (calls, .error t)) :
    runCase f c = (calls, ⟨c.name, false, some (thrownMessage t), none, none⟩) := by
  simp [runCase, h]

theorem runCase_ok {f : Callable} {c : Case} {calls : List (List Value)}
    {actual : Value} (h : f.run c.args = (calls, .ok actual)) :
    runCase f c = (calls,
      if deepEqual actual c.expected then ⟨c.name, true, none, none, none⟩
      else ⟨c.name, false, some "Output mismatch.",
        serializeValue c.expected, serializeValue actual⟩) := by
  by_cases hd : deepEqual actual c.expected = true
  · simp [runCase, h, hd]
  · simp [runCase, h, hd]

theorem runTestsGo_snd (f : Callable) (cases : List Case) :
    (runTestsGo f cases).2 = cases.map (fun c => (runCase f c).2) := by
  induction cases with
  | nil => rfl
  | cons c cs ih => simp [runTestsGo, ih]

theorem runTestsGo_fst (f : Callable) (cases : List Case) :
    (runTestsGo f cases).1 = (cases.map (fun c => (runCase f c).1)).flatten := by
  induction cases with
  | nil => rfl
  | cons c cs ih => simp [runTestsGo, ih]

theorem workerExecute_callable (ecalls : List (List Value)) (f : Callable)
    (cases : Option (List Case)) :
    workerExecute ⟨ecalls, .ok (.callable f)⟩ cases =
      .success (runTestsGo f (cases.getD [])).2
        (logsOf ecalls ++ logsOf (runTestsGo f (cases.getD [])).1) := by
  simp [workerExecute, runTests]

theorem workerExecute_evalThrow (ecalls : List (List Value)) (t : Thrown)
    (cases : Option (List Case)) :
    workerExecute ⟨ecalls, .error t⟩ cases =
      .failure (thrownMessage t) (logsOf ecalls) := rfl

theorem workerExecute_notFunction (ecalls : List (List Value)) (v : Value)
    (cases : Option (List Case)) :
    workerExecute ⟨ecalls, .ok (.value v)⟩ cases =
      .failure "solution must be a function." (logsOf ecalls) := rfl

theorem consoleSerialize_eq_specRender {v : Value} (h : isUndef v = false) :
    (consoleSerialize v).getD "" = specRender v := by
  cases v <;> simp [isUndef, consoleSerialize, specRender, jsonStringify] at h ⊢

theorem logsField_eq_workerCalls (program : ProgramModel)
    (cases : Option (List Case)) :
    (workerExecute program cases).logsField = logsOf (workerCalls program cases) := by
  rcases program with ⟨ecalls, res⟩
  cases res with
  | error t => rfl
  | ok sol =>
    cases sol with
    | value v => rfl
    | callable f =>
      rw [workerExecute_callable]
      simp [WorkerResponse.logsField, workerCalls, logsOf]

/-! ## Claim theorems -/

/-- C1 (counterexample): the claim as stated fails for non-null, non-array
objects holding `undefined` values.  `deepEqual({x: undefined},
{y: undefined})` is `true` in the source — the key counts match and the
lookup of the missing key `"x"` on the second object yields `undefined`,
which is `Object.is`-identical to the stored `undefined` — yet the key
sets `{x}` and `{y}` differ, so the claimed equivalence is violated. -/
theorem deepEqual_mapping_counterexample :
    deepEqual (.obj [("x", .undef)]) (.obj [("y", .undef)]) = true ∧
      ¬ mappingEqSpec [("x", .undef)] [("y", .undef)] := by
  constructor
  · decide
  · rintro ⟨hset, -⟩
    have hx : ("x" : String) ∈ (["x"] : List String).toFinset := by decide
    rw [show (([("x", Value.undef)].map Prod.fst).toFinset) = (["x"] : List String).toFinset from rfl] at hset
    rw [hset] at hx
    revert hx
    decide

/-- C1 (amended): for every pair of non-null, non-array objects that are
well-formed JavaScript-object images of JSON-representable data (distinct
keys, no `undefined` among the field values), `deepEqual` returns `true`
iff the two objects have the same set of own enumerable keys (key order
irrelevant) and for every such key the two values at that key are
recursively deep-equal. -/
theorem deepEqual_mapping_spec (xs ys : List (String × Value))
    (hx : isJson (.obj xs) = true) (hy : isJson (.obj ys) = true) :
    deepEqual (.obj xs) (.obj ys) = true ↔ mappingEqSpec xs ys :=
  deepEqual_obj_char hx hy

/-- Witness for C1's amended theorem, at the specification's own example:
`deepEqual({a:1, b:[1,2]}, {b:[1,2], a:1}) = true` (key order ignored). -/
theorem deepEqual_mapping_spec_witness :
    deepEqual (.obj [("a", .num 1), ("b", .arr [.num 1, .num 2])])
      (.obj [("b", .arr [.num 1, .num 2]), ("a", .num 1)]) = true :=
  (deepEqual_mapping_spec
      [("a", .num 1), ("b", .arr [.num 1, .num 2])]
      [("b", .arr [.num 1, .num 2]), ("a", .num 1)]
      (by decide) (by decide)).mpr ⟨by decide, by decide⟩

/-- C5: on acyclic JSON-derived values (built only from null, booleans,
numbers, strings, arrays and plain objects), `deepEqual` is reflexive and
symmetric. -/
theorem deepEqual_refl_symm (a b : Value) (ha : isJson a = true)
    (hb : isJson b = true) :
    deepEqual a a = true ∧ deepEqual a b = deepEqual b a :=
  ⟨deepEqual_refl a, deepEqual_symm_of_json ha hb⟩

/-- Witness for C5 at concrete JSON-derived values. -/
theorem deepEqual_refl_symm_witness :
    deepEqual (.obj [("a", .num 1)]) (.obj [("a", .num 1)]) = true ∧
      deepEqual (.obj [("a", .num 1)]) (.arr [.num 2]) =
        deepEqual (.arr [.num 2]) (.obj [("a", .num 1)]) :=
  deepEqual_refl_symm (.obj [("a", .num 1)]) (.arr [.num 2])
    (by decide) (by decide)

/-- C6: `deepEqual` is total on every pair of acyclic values: the
step-indexed evaluator `deepEqualFuel`, which charges one fuel unit per
nested recursive call and reports `none` on fuel exhaustion, already
returns a result (never `none`, and there is no exception to raise) with
recursion depth bounded by the size of its first argument, and that result
agrees with the total function `deepEqual`. -/
theorem deepEqual_terminates (a b : Value) :
    deepEqualFuel (sizeOf a) a b = some (deepEqual a b) :=
  deepEqualFuel_eq (sizeOf a) a b (le_refl _)

/-- C2: for every callable entry point and case list, the loop of
`runTests` produces exactly one `TestResult` per case, in submission
order (the i-th result carries the i-th case's name and is computed from
the i-th case alone), and the worker answers `ok: true` with exactly that
result list. -/
theorem runTests_batch_shape (f : Callable) (cases : List Case)
    (ecalls : List (List Value)) :
    (runTestsGo f cases).2.length = cases.length ∧
    (runTestsGo f cases).2.map TestResult.name = cases.map Case.name ∧
    (runTestsGo f cases).2 = cases.map (fun c => (runCase f c).2) ∧
    workerExecute ⟨ecalls, .ok (.callable f)⟩ (some cases) =
      .success (runTestsGo f cases).2
        (logsOf ecalls ++ logsOf (runTestsGo f cases).1) := by
  refine ⟨?_, ?_, runTestsGo_snd f cases, workerExecute_callable ecalls f (some cases)⟩
  · rw [runTestsGo_snd, List.length_map]
  · rw [runTestsGo_snd, List.map_map]
    exact List.map_congr_left (fun c _ => runCase_name f c)

/-- C3: when invoking the entry point on case K throws, the K-th result is
`{ name: <case K's name>, pass: false, error: <extracted message> }` with
no expected/actual fields, and the results after position K are exactly
the results of running the remaining cases on their own. -/
theorem runTests_throwing_case (f : Callable) (cases : List Case) (K : Nat)
    (c : Case) (calls : List (List Value)) (t : Thrown)
    (hK : cases[K]? = some c)
    (ht : f.run c.args = (calls, .error t)) :
    (runTestsGo f cases).2[K]? =
      some ⟨c.name, false, some (thrownMessage t), none, none⟩ ∧
    (runTestsGo f cases).2.drop (K + 1) =
      (runTestsGo f (cases.drop (K + 1))).2 := by
  constructor
  · rw [runTestsGo_snd, List.getElem?_map, hK]
    simp [runCase_error ht]
  · rw [runTestsGo_snd, runTestsGo_snd, List.map_drop]

/-- Witness for C3: a concrete entry point that throws on the empty
argument vector, with a second case that still produces its own result. -/
theorem runTests_throwing_case_witness :
    (runTestsGo ⟨fun args => ([],
        if args.isEmpty then .error (.errObj "boom") else .ok (.num 1))⟩
      [⟨"c1", [], .undef⟩, ⟨"c2", [.num 5], .num 1⟩]).2[0]? =
      some ⟨"c1", false, some "boom", none, none⟩ ∧
    (runTestsGo ⟨fun args => ([],
        if args.isEmpty then .error (.errObj "boom") else .ok (.num 1))⟩
      [⟨"c1", [], .undef⟩, ⟨"c2", [.num 5], .num 1⟩]).2.drop 1 =
      (runTestsGo ⟨fun args => ([],
          if args.isEmpty then .error (.errObj "boom") else .ok (.num 1))⟩
        ([⟨"c1", [], .undef⟩, ⟨"c2", [.num 5], .num 1⟩].drop 1)).2 :=
  runTests_throwing_case
    ⟨fun args => ([],
      if args.isEmpty then .error (.errObj "boom") else .ok (.num 1))⟩
    [⟨"c1", [], .undef⟩, ⟨"c2", [.num 5], .num 1⟩] 0
    ⟨"c1", [], .undef⟩ [] (.errObj "boom") rfl rfl

/-- C9: a null/undefined `cases` field is coalesced to the empty case list
(`cases ?? []`): with a callable entry point the response is
`{ ok: true, results: [], logs }`, not an error. -/
theorem workerExecute_missing_cases (ecalls : List (List Value)) (f : Callable) :
    workerExecute ⟨ecalls, .ok (.callable f)⟩ none =
      .success [] (logsOf ecalls) := by
  rw [workerExecute_callable]
  simp [runTestsGo, logsOf]

/-- C4 (counterexample): the claim's assertion that a Failure's `error` is
always non-empty fails.  A program text that throws `new Error("")` at
load time (top-level code runs during evaluation) produces
`{ ok: false, error: "", logs: [] }` — a Failure with an empty message. -/
theorem workerExecute_empty_error_counterexample :
    workerExecute ⟨[], .error (.errObj "")⟩ none = .failure "" [] := rfl

/-- C4 (amended): the worker answers `Failure` exactly when loading fails
(evaluation throws, or the resolved entry point is not callable); the
Failure carries the console lines captured before the failure and, as its
message, the thrown error's extracted message (which is empty exactly when
the thrown `Error` carried an empty message) or the synthesized
`"solution must be a function."`; no per-case results appear in a Failure,
and once a callable entry point is obtained the response is always
`ok: true`. -/
theorem workerExecute_failure_spec (program : ProgramModel)
    (cases : Option (List Case)) :
    ((workerExecute program cases).isFailure = true ↔
      ∀ f, program.evalResult ≠ .ok (.callable f)) ∧
    (∀ t, program.evalResult = .error t →
      workerExecute program cases =
        .failure (thrownMessage t) (logsOf program.evalCalls)) ∧
    (∀ v, program.evalResult = .ok (.value v) →
      workerExecute program cases =
        .failure "solution must be a function." (logsOf program.evalCalls)) ∧
    (∀ f, program.evalResult = .ok (.callable f) →
      workerExecute program cases =
        .success (runTestsGo f (cases.getD [])).2
          (logsOf program.evalCalls ++ logsOf (runTestsGo f (cases.getD [])).1)) := by
  rcases program with ⟨ecalls, res⟩
  refine ⟨?_, ?_, ?_, ?_⟩
  · cases res with
    | error t =>
      rw [workerExecute_evalThrow]
      simp [WorkerResponse.isFailure]
    | ok sol =>
      cases sol with
      | value v =>
        rw [workerExecute_notFunction]
        simp [WorkerResponse.isFailure]
      | callable f =>
        rw [workerExecute_callable]
        simp only [WorkerResponse.isFailure, Bool.false_eq_true, false_iff]
        intro h
        exact h f rfl
  · intro t ht
    cases ht
    exact workerExecute_evalThrow ecalls t cases
  · intro v hv
    cases hv
    exact workerExecute_notFunction ecalls v cases
  · intro f hf
    cases hf
    exact workerExecute_callable ecalls f cases

/-- Witness for C4's amended theorem: a load-time throw with one console
line captured before it surfaces as a Failure with that line. -/
theorem workerExecute_failure_spec_witness :
    workerExecute ⟨[[Value.str "hi"]], .error (.errObj "boom")⟩ none =
      .failure "boom" ["hi"] :=
  (workerExecute_failure_spec ⟨[[Value.str "hi"]], .error (.errObj "boom")⟩
    none).2.1 (.errObj "boom") rfl

/-- C7: every captured console verb is the single logger; a call appends
exactly one line — string arguments pass through unchanged, every other
(defined) argument renders as its JSON serialization text, joined with
single spaces — and the worker returns, in both response shapes, exactly
one line per console call of the run, in call order, untruncated. -/
theorem captureConsole_spec (logs : List String) (args : List Value)
    (program : ProgramModel) (cases : Option (List Case)) :
    (captureConsole.log = consoleLog ∧ captureConsole.info = consoleLog ∧
      captureConsole.warn = consoleLog ∧ captureConsole.error = consoleLog) ∧
    ((∀ v ∈ args, isUndef v = false) →
      consoleLog logs args =
        logs ++ [String.intercalate " " (args.map specRender)]) ∧
    (workerExecute program cases).logsField = logsOf (workerCalls program cases) ∧
    ((workerExecute program cases).logsField).length =
      (workerCalls program cases).length := by
  refine ⟨⟨rfl, rfl, rfl, rfl⟩, ?_, logsField_eq_workerCalls program cases, ?_⟩
  · intro h
    unfold consoleLog logLine
    congr 1
    rw [List.map_congr_left (fun v hv => consoleSerialize_eq_specRender (h v hv))]
  · rw [logsField_eq_workerCalls]
    exact List.length_map _ _

/-- Witness for C7: one call with a string and a number argument appends
the single space-joined line. -/
theorem captureConsole_spec_witness :
    consoleLog ["a"] [Value.str "hi", Value.num 3] = ["a", "hi 3"] :=
  (captureConsole_spec ["a"] [Value.str "hi", Value.num 3]
    ⟨[], .ok (.value .null)⟩ none).2.1 (by decide)

/-- C8: the Host Controller's argument vector follows the JSON-or-literal
rule exactly as specified — the args text is parsed as JSON (on failure
the trimmed raw text is a literal string value); an array result is the
vector verbatim, any other value a one-element vector, except that an
`undefined` (absent/empty) value yields the empty vector — and the
expected text is parsed by the same rule but kept as one value. -/
theorem handleRun_argVector_spec (jsonParse : String → Option Value)
    (rawArgs rawExpected : String) (index : Nat) :
    buildArgs jsonParse rawArgs = specArgVector jsonParse rawArgs ∧
    (parsedCase jsonParse index rawArgs rawExpected).args =
      buildArgs jsonParse rawArgs ∧
    (parsedCase jsonParse index rawArgs rawExpected).expected =
      parseValue jsonParse rawExpected := by
  refine ⟨?_, rfl, rfl⟩
  by_cases h : jsTrim rawArgs = ""
  · simp [buildArgs, parseValue, specArgVector, h, isUndef]
  · cases hp : jsonParse (jsTrim rawArgs) with
    | none => simp [buildArgs, parseValue, specArgVector, h, hp, isUndef]
    | some v =>
      cases v <;> simp [buildArgs, parseValue, specArgVector, h, hp, isUndef]

/-- C10: an empty or whitespace-only expected text parses to `undefined`,
and such a case passes exactly when the entry point's invocation returns
`undefined`; any other returned value yields `pass: false` with error
`"Output mismatch."`. -/
theorem emptyExpected_pass_iff (jsonParse : String → Option Value)
    (raw : String) (f : Callable) (c : Case) (calls : List (List Value))
    (actual : Value) (hraw : jsTrim raw = "")
    (hexp : c.expected = parseValue jsonParse raw)
    (hrun : f.run c.args = (calls, .ok actual)) :
    parseValue jsonParse raw = .undef ∧
    ((runCase f c).2.pass = true ↔ actual = .undef) ∧
    (actual ≠ .undef →
      (runCase f c).2.pass = false ∧
      (runCase f c).2.error = some "Output mismatch.") := by
  have hpv : parseValue jsonParse raw = .undef := by simp [parseValue, hraw]
  have hce : c.expected = .undef := by rw [hexp, hpv]
  cases hda : deepEqual actual (Value.undef) with
  | false =>
    have hne : actual ≠ .undef := by
      intro h
      rw [h, deepEqual_refl] at hda
      exact Bool.noConfusion hda
    have h2 := runCase_ok hrun
    rw [hce, hda] at h2
    refine ⟨hpv, ?_, fun _ => ?_⟩
    · simp [h2, hne]
    · simp [h2]
  | true =>
    have ha : actual = .undef := (deepEqual_undef_right_iff actual).mp hda
    have h2 := runCase_ok hrun
    rw [hce, hda] at h2
    exact ⟨hpv, by simp [h2, ha], fun hne => absurd ha hne⟩

/-- Witness for C10: whitespace expected text, an entry point returning 1:
the case fails with `"Output mismatch."`. -/
theorem emptyExpected_pass_iff_witness :
    parseValue (fun _ => none) "  " = .undef ∧
    ((runCase ⟨fun _ => ([], .ok (.num 1))⟩ ⟨"c", [], .undef⟩).2.pass = true ↔
      Value.num 1 = .undef) ∧
    (Value.num 1 ≠ .undef →
      (runCase ⟨fun _ => ([], .ok (.num 1))⟩ ⟨"c", [], .undef⟩).2.pass = false ∧
      (runCase ⟨fun _ => ([], .ok (.num 1))⟩ ⟨"c", [], .undef⟩).2.error =
        some "Output mismatch.") :=
  emptyExpected_pass_iff (fun _ => none) "  " ⟨fun _ => ([], .ok (.num 1))⟩
    ⟨"c", [], .undef⟩ [] (.num 1) (by decide) (by rfl) rfl
